import Mathlib

/-!
Shallow embedding of the waitlist simulator (src/app.js, deduplicated across the
three near-identical copies in the repository): the seeded RNG `mulberry32`, the
Knuth Poisson sampler `poisson`, the day-stepped queue kernel `simulate`, and the
derived statistics (`quantile`, mean, within-threshold fractions, utilisation).

Embedding conventions:
* JavaScript 32-bit integer/bit operations are modelled on `Nat` with explicit
  `% 2^32`; the bit patterns agree with JS ToInt32/ToUint32 semantics because
  xor/or/shift act on the (unsigned) bit pattern.
* JavaScript numbers are modelled as exact rationals `ℚ`.  All arithmetic the
  claims depend on (integer accumulation, division of a 32-bit integer by 2^32,
  percentage divisions, quantile index products) is exact in doubles on the
  relevant domain; the embedding performs it exactly.
* `Math.exp` is a fixed transcendental routine; its output is not bit-exactly
  specified, so the embedding abstracts it as an explicit function argument
  `expFn : ℚ → ℚ` threaded to the one call site (`L = Math.exp(-lambda)` in
  `poisson`).  Theorems hold for every such function (positivity of the value is
  assumed exactly where the source relies on `exp` being positive).
* The `do { k++; p *= rand() } while (p > L)` loop of `poisson` terminates
  because every `mulberry32` draw is at most `1 - 2^-32`; the embedding realises
  the loop as the least number of draws whose product falls to `L` or below
  (`Nat.find`), which is exactly what the do-while computes.
* `new Array(days + rebookDelay + 2)` throws a RangeError unless the requested
  length is an integer in `[0, 2^32)`, and a `push` onto `queue`, `waits` or
  `queueSizes` throws a RangeError when it would take that array's length past
  `2^32 - 1`; `simulate` therefore returns `Except String SimResult`, with the
  error branch modelling both throws (the push cap as a predicate over the
  trace, which agrees with JS up to the first offending push).
* The day loop additionally records per-day instrumentation (`DayLog`,
  `ServeEvent`): the Poisson draw, the `futureAdds[d]` value read, the pushed
  arrival count, and one event per service attempt.  These logs are definitional
  extensions used to state trace properties; the fields mirroring the source
  (queue, futureAdds, waits, slot counters, queueSizes) are updated exactly as
  the source updates them.
-/

namespace Waitlist

/-- 2^32, the modulus of all JavaScript 32-bit bit operations. -/
def M32 : Nat := 4294967296

/-- One state advance of the `mulberry32` closure: `a += 0x6D2B79F5` on the
32-bit state (JS `+=` followed by use as a 32-bit operand). -/
def mulberry32Next (a : Nat) : Nat := (a + 0x6D2B79F5) % M32

/-- The output mixing of `mulberry32` applied to the advanced state `a`:
`t = imul(a ^ (a >>> 15), 1 | a); t ^= t + imul(t ^ (t >>> 7), 61 | t);
return (t ^ (t >>> 14)) >>> 0` — each `imul` and ToInt32 coercion is `% 2^32`
on the bit pattern. -/
def mulberry32Mix (a : Nat) : Nat :=
  let t1 := ((a ^^^ (a >>> 15)) * (1 ||| a)) % M32
  let t2 := t1 ^^^ ((t1 + ((t1 ^^^ (t1 >>> 7)) * (61 ||| t1)) % M32) % M32)
  t2 ^^^ (t2 >>> 14)

/-- The uniform value returned by a `mulberry32` call whose advanced state is
`a`: the mixed 32-bit word divided by 2^32 (exact in doubles, exact here). -/
def rval (a : Nat) : ℚ := (mulberry32Mix a : ℚ) / (M32 : ℚ)

/-- The i-th (0-based) uniform draw of the generator started from state `a`:
the state is advanced i+1 times and mixed. -/
def draw (a i : Nat) : ℚ := rval (mulberry32Next^[i + 1] a)

/-- Product of the first `k` draws from state `a` — the value of the `poisson`
accumulator `p` after `k` multiplications. -/
def drawProd (a k : Nat) : ℚ := ∏ i ∈ Finset.range k, draw a i

theorem xor_lt_M32 {x y : Nat} (hx : x < M32) (hy : y < M32) : x ^^^ y < M32 := by
  have hM : M32 = 2 ^ 32 := by decide
  rw [hM] at hx hy ⊢
  exact Nat.xor_lt_two_pow hx hy

theorem mulberry32Mix_lt (a : Nat) : mulberry32Mix a < M32 := by
  unfold mulberry32Mix
  set t1 := ((a ^^^ (a >>> 15)) * (1 ||| a)) % M32 with ht1
  set t2 := t1 ^^^ ((t1 + ((t1 ^^^ (t1 >>> 7)) * (61 ||| t1)) % M32) % M32) with ht2
  have h1 : t1 < M32 := Nat.mod_lt _ (by decide)
  have h2 : t2 < M32 := xor_lt_M32 h1 (Nat.mod_lt _ (by decide))
  have h3 : t2 >>> 14 ≤ t2 := by
    rw [Nat.shiftRight_eq_div_pow]
    exact Nat.div_le_self _ _
  exact xor_lt_M32 h2 (lt_of_le_of_lt h3 h2)

theorem rval_nonneg (a : Nat) : 0 ≤ rval a := by
  unfold rval
  positivity

theorem rval_le (a : Nat) : rval a ≤ (M32 - 1 : ℚ) / (M32 : ℚ) := by
  unfold rval
  have h : (mulberry32Mix a : ℚ) ≤ ((M32 : ℚ) - 1) := by
    have h1 : mulberry32Mix a + 1 ≤ M32 := mulberry32Mix_lt a
    have h2 : ((mulberry32Mix a + 1 : Nat) : ℚ) ≤ ((M32 : Nat) : ℚ) := by exact_mod_cast h1
    push_cast at h2
    linarith
  gcongr

theorem draw_nonneg (a i : Nat) : 0 ≤ draw a i := rval_nonneg _

theorem draw_le (a i : Nat) : draw a i ≤ (M32 - 1 : ℚ) / (M32 : ℚ) := rval_le _

theorem drawProd_nonneg (a k : Nat) : 0 ≤ drawProd a k :=
  Finset.prod_nonneg fun i _ => draw_nonneg a i

theorem drawProd_le_pow (a k : Nat) :
    drawProd a k ≤ ((M32 - 1 : ℚ) / (M32 : ℚ)) ^ k := by
  unfold drawProd
  refine le_trans (Finset.prod_le_prod (fun i _ => draw_nonneg a i) (fun i _ => draw_le a i)) ?_
  rw [Finset.prod_const, Finset.card_range]

/-- Termination of the Knuth loop: the accumulator is a product of draws, each
at most `1 - 2^-32`, so it eventually falls to any positive threshold `L`. -/
theorem exists_drawProd_le (a : Nat) (L : ℚ) (hL : 0 < L) :
    ∃ k, drawProd a (k + 1) ≤ L := by
  have hc0 : (0 : ℚ) ≤ (M32 - 1 : ℚ) / (M32 : ℚ) := by norm_num [M32]
  have hc1 : (M32 - 1 : ℚ) / (M32 : ℚ) < 1 := by norm_num [M32]
  obtain ⟨n, hn⟩ := exists_pow_lt_of_lt_one hL hc1
  refine ⟨n, le_trans (drawProd_le_pow a (n + 1)) (le_of_lt ?_)⟩
  calc ((M32 - 1 : ℚ) / (M32 : ℚ)) ^ (n + 1)
      ≤ ((M32 - 1 : ℚ) / (M32 : ℚ)) ^ n := pow_le_pow_of_le_one hc0 (le_of_lt hc1) (Nat.le_succ n)
    _ < L := hn

/-- The Knuth multiplicative Poisson sampler of the source:
`if (lambda <= 0) return 0; L = exp(-lambda); k = 0; p = 1;
do { k++; p *= rand(); } while (p > L); return k - 1;`
The do-while makes `k + 1` draws where `k` is the least index with
`drawProd a (k+1) ≤ L`, and returns `k`; the generator state has then advanced
`k + 1` times.  `expFn` stands for `Math.exp`; the result also carries the new
generator state (the source mutates the closed-over state).  The source loop
diverges in exact arithmetic if `L ≤ 0`, which cannot happen for a genuine
exponential; that branch returns `(0, a)` and is assumed away in the theorems. -/
def poisson (expFn : ℚ → ℚ) (lambda : ℚ) (a : Nat) : Nat × Nat :=
  if lambda ≤ 0 then (0, a)
  else
    if hL : 0 < expFn (-lambda) then
      let k := Nat.find (exists_drawProd_le a (expFn (-lambda)) hL)
      (k, mulberry32Next^[k + 1] a)
    else (0, a)

/-- The `SimulationParameters` record destructured at the top of `simulate`.
`seed` is kept integral (the claims only exercise integer seeds; JS `seed >>> 0`
is ToUint32, i.e. `% 2^32` for integers). -/
structure Params where
  arrivalRate : ℚ
  capacityPerDay : ℚ
  dnaRate : ℚ
  rebookRate : ℚ
  rebookDelay : ℚ
  days : ℚ
  warmup : ℚ
  seed : Int
deriving Repr

/-- The mutable data of one run that the service loop touches: the generator
state, the FIFO queue of entry days, the `futureAdds` schedule, the recorded
waits (in push order) and the used-slot counter. -/
structure Core where
  a : Nat
  queue : List Nat
  futureAdds : List Nat
  waits : List Nat
  usedSlots : Nat
deriving Repr

/-- Instrumentation: one record per service attempt that popped the queue.
`dropped` is true exactly when a rebooking's `returnDay` failed the
`returnDay < futureAdds.length` bounds guard and was silently discarded. -/
structure ServeEvent where
  enteredDay : Nat
  isDNA : Bool
  willRebook : Bool
  returnDay : Nat
  dropped : Bool
deriving Repr, DecidableEq

/-- Output of the service loop: the updated mutable data plus the event list. -/
structure ServeOut where
  core : Core
  events : List ServeEvent
deriving Repr

/-- The inner service loop of day `d`:
`for (s = 0; s < cap; s++) { if (queue.length === 0) break; usedSlots += 1;
enteredDay = queue.shift(); isDNA = rand() < dnaRate/100; if (isDNA) { ... }
else { wait = d - enteredDay; if (d >= warmup) waits.push(wait); } }`.
`wOK` is the per-day constant `d >= warmup`; recursion is on the remaining
slot count. -/
def serveLoop (dnaRate rebookRate : ℚ) (rebookOff : Nat) (wOK : Bool) (d : Nat) :
    Nat → Core → ServeOut
  | 0, st => ⟨st, []⟩
  | s + 1, st =>
    match st.queue with
    | [] => ⟨st, []⟩
    | e :: rest =>
      let a1 := mulberry32Next st.a
      if rval a1 < dnaRate / 100 then
        -- DNA: draw the rebook decision
        let a2 := mulberry32Next a1
        if rval a2 < rebookRate / 100 then
          let returnDay := d + rebookOff
          let inBounds := decide (returnDay < st.futureAdds.length)
          let fa2 := if returnDay < st.futureAdds.length
                     then st.futureAdds.set returnDay (st.futureAdds.getD returnDay 0 + 1)
                     else st.futureAdds
          let r := serveLoop dnaRate rebookRate rebookOff wOK d s
            { a := a2, queue := rest, futureAdds := fa2,
              waits := st.waits, usedSlots := st.usedSlots + 1 }
          ⟨r.core, ⟨e, true, true, returnDay, !inBounds⟩ :: r.events⟩
        else
          let r := serveLoop dnaRate rebookRate rebookOff wOK d s
            { a := a2, queue := rest, futureAdds := st.futureAdds,
              waits := st.waits, usedSlots := st.usedSlots + 1 }
          ⟨r.core, ⟨e, true, false, 0, false⟩ :: r.events⟩
      else
        -- attended: record the wait when past warm-up
        let waits2 := if wOK then st.waits ++ [d - e] else st.waits
        let r := serveLoop dnaRate rebookRate rebookOff wOK d s
          { a := a1, queue := rest, futureAdds := st.futureAdds,
            waits := waits2, usedSlots := st.usedSlots + 1 }
        ⟨r.core, ⟨e, false, false, 0, false⟩ :: r.events⟩

/-- Instrumentation: what happened on one simulated day. `pois` is the Poisson
draw, `futHere` the `futureAdds[d]` value read, `arrivals` the number of
entries actually pushed, `qlen` the queue length recorded into `queueSizes`. -/
structure DayLog where
  day : Nat
  pois : Nat
  futHere : Nat
  arrivals : Nat
  events : List ServeEvent
  qlen : Nat
deriving Repr

instance : Inhabited DayLog := ⟨⟨0, 0, 0, 0, [], 0⟩⟩

/-- State threaded through the day loop. -/
structure RunState where
  core : Core
  totalSlots : Nat
  queueSizes : List Nat
  logs : List DayLog
deriving Repr

/-- `cap = Math.max(0, Math.floor(capacityPerDay))` — for rationals,
`Int.toNat ∘ Int.floor` is exactly floor-then-clamp-at-0. -/
def capOf (capacityPerDay : ℚ) : Nat := (⌊capacityPerDay⌋).toNat

/-- `Math.max(0, Math.floor(rebookDelay))`, the delay added to the service day
to obtain `returnDay`. -/
def rebookOffOf (rebookDelay : ℚ) : Nat := (⌊rebookDelay⌋).toNat

/-- One iteration of `for (let d = 0; d < days; d++)`: the Poisson arrivals plus
`futureAdds[d]` are pushed (an out-of-range read yields `undefined`, making the
arrival count NaN, so nothing is pushed — the `else 0`), capacity is accrued,
the service loop runs, and the post-service queue length is recorded. -/
def dayStep (expFn : ℚ → ℚ) (p : Params) (d : Nat) (st : RunState) : RunState :=
  let pk := poisson expFn p.arrivalRate st.core.a
  let futHere := st.core.futureAdds.getD d 0
  let arrivals := if d < st.core.futureAdds.length then pk.1 + futHere else 0
  let queue1 := st.core.queue ++ List.replicate arrivals d
  let cap := capOf p.capacityPerDay
  let wOK := decide (p.warmup ≤ (d : ℚ))
  let so := serveLoop p.dnaRate p.rebookRate (rebookOffOf p.rebookDelay) wOK d cap
    { a := pk.2, queue := queue1, futureAdds := st.core.futureAdds,
      waits := st.core.waits, usedSlots := st.core.usedSlots }
  { core := so.core,
    totalSlots := st.totalSlots + cap,
    queueSizes := st.queueSizes ++ [so.core.queue.length],
    logs := st.logs ++ [⟨d, pk.1, futHere, arrivals, so.events, so.core.queue.length⟩] }

/-- The day loop, processing `n` further days starting at day `d`. -/
def runFrom (expFn : ℚ → ℚ) (p : Params) : Nat → Nat → RunState → RunState
  | _, 0, st => st
  | d, n + 1, st => runFrom expFn p (d + 1) n (dayStep expFn p d st)

/-- Number of iterations of `for (let d = 0; d < days; d++)` for a (possibly
fractional or nonpositive) `days`: the count of naturals below `days`. -/
def numDaysOf (days : ℚ) : Nat := (⌈days⌉).toNat

/-- The requested length of `new Array(days + rebookDelay + 2)`. -/
def lenQOf (p : Params) : ℚ := p.days + p.rebookDelay + 2

/-- The JS `Array(len)` constructor succeeds iff the requested length is an
integer in `[0, 2^32)`; otherwise it throws a RangeError. -/
def arrayLenOK (q : ℚ) : Prop := q.den = 1 ∧ 0 ≤ q.num ∧ q.num < (M32 : Int)

instance (q : ℚ) : Decidable (arrayLenOK q) := by
  unfold arrayLenOK
  infer_instance

/-- The realized `futureAdds.length`. -/
def lenNatOf (p : Params) : Nat := (lenQOf p).num.toNat

/-- The state just before day 0: seeded generator (`seed >>> 0`), empty queue,
zero-filled `futureAdds`, no waits, zero slot counters. -/
def initState (p : Params) : RunState :=
  { core := { a := (p.seed % (M32 : Int)).toNat, queue := [],
              futureAdds := List.replicate (lenNatOf p) 0,
              waits := [], usedSlots := 0 },
    totalSlots := 0, queueSizes := [], logs := [] }

/-- The whole day loop of one `simulate` call. -/
def simRun (expFn : ℚ → ℚ) (p : Params) : RunState :=
  runFrom expFn p 0 (numDaysOf p.days) (initState p)

/-- `quantile(q)` over the (already sorted) waits:
`if (n === 0) return null; idx = Math.floor((n - 1) * q); return waits[idx];`
(an out-of-range index reads `undefined`; both JS "no value" outcomes are
`none`). -/
def quantile (ws : List Nat) (q : ℚ) : Option Nat :=
  if ws.length = 0 then none
  else ws.get? (⌊((ws.length - 1 : Nat) : ℚ) * q⌋).toNat

/-- `mean = n ? waits.reduce((a, b) => a + b, 0) / n : null`. -/
def meanWaitOf (ws : List Nat) : Option ℚ :=
  if ws.length = 0 then none else some ((ws.sum : ℚ) / (ws.length : ℚ))

/-- `within = t => n ? waits.filter(w => w <= t).length / n : null`. -/
def withinOf (ws : List Nat) (t : Nat) : Option ℚ :=
  if ws.length = 0 then none
  else some (((ws.filter (fun w => w ≤ t)).length : ℚ) / (ws.length : ℚ))

/-- The `metrics` record of the result. -/
structure Metrics where
  utilisation : ℚ
  meanWait : Option ℚ
  medianWait : Option Nat
  p90Wait : Option Nat
  within14 : Option ℚ
  within28 : Option ℚ
  within42 : Option ℚ
  nSeen : Nat
deriving Repr, DecidableEq

/-- The `{ queueSizes, waits, metrics }` record returned by `simulate`; `waits`
is the ascending-sorted array (the source sorts in place and returns it). -/
structure SimResult where
  queueSizes : List Nat
  waits : List Nat
  metrics : Metrics
deriving Repr, DecidableEq

/-- Statistics derivation after the day loop: sort the waits ascending, then
utilisation, mean, the two quantiles, the three within-threshold fractions and
the count.  JS `.sort((a, b) => a - b)` on naturals is the unique ascending
sorted permutation, realized here by insertion sort. -/
def mkResult (st : RunState) : SimResult :=
  let sorted := List.insertionSort (· ≤ ·) st.core.waits
  { queueSizes := st.queueSizes,
    waits := sorted,
    metrics :=
      { utilisation := if 0 < st.totalSlots
                       then (st.core.usedSlots : ℚ) / (st.totalSlots : ℚ) else 0,
        meanWait := meanWaitOf sorted,
        medianWait := quantile sorted (1 / 2),
        p90Wait := quantile sorted (9 / 10),
        within14 := withinOf sorted 14,
        within28 := withinOf sorted 28,
        within42 := withinOf sorted 42,
        nSeen := sorted.length } }

/-- Maximum JS Array length, `2^32 - 1`: a `push` that would take an array's
length past it throws a RangeError. -/
def U32MAX : Nat := 4294967295

/-- The queue length on day `i` just before the service loop, i.e. its peak for
that day: the previous day's closing length plus the entries pushed on day `i`
(the queue only shrinks during service). -/
def qBeforeOf (st : RunState) (i : Nat) : Nat :=
  (if i = 0 then 0 else (st.logs.getD (i - 1) default).qlen)
    + (st.logs.getD i default).arrivals

/-- No push of the run takes an array past the `2^32 - 1` JS length cap:
`queueSizes` receives one push per day (so its peak length is the day count),
`waits` only grows (so its peak is its final length), and the queue peaks at
each day's pre-service length.  In JS the first offending push throws a
RangeError; the unbounded trace agrees with JS up to that first push, so the
existence of any violation along the trace is exactly the throw condition. -/
def pushesOK (st : RunState) : Prop :=
  st.logs.length ≤ U32MAX
  ∧ st.core.waits.length ≤ U32MAX
  ∧ ∀ i, i < st.logs.length → qBeforeOf st i ≤ U32MAX

instance (st : RunState) : Decidable (pushesOK st) := by
  unfold pushesOK
  infer_instance

/-- The simulation kernel.  A call with finite numeric inputs can throw in two
ways, both RangeErrors, and both are modelled by the `Except.error` branch:
`new Array(days + rebookDelay + 2)` throws when the requested length is not an
integer in `[0, 2^32)`, and a later `push` onto `queue`, `waits` or
`queueSizes` throws when it would take that array's length past `2^32 - 1`. -/
def simulate (expFn : ℚ → ℚ) (p : Params) : Except String SimResult :=
  if arrayLenOK (lenQOf p) then
    if pushesOK (simRun expFn p) then .ok (mkResult (simRun expFn p))
    else .error "Invalid array length"
  else .error "Invalid array length"

/-- Number of services performed in a day log. -/
def servedOf (lg : DayLog) : Nat := lg.events.length

/-- The waits pushed by one day's service loop, reconstructed from the events:
attended services only, each wait `d - enteredDay`, and only when the warm-up
test passed. -/
def recordedOf (w : Bool) (d : Nat) (evs : List ServeEvent) : List Nat :=
  if w then (evs.filter (fun ev => ev.isDNA = false)).map (fun ev => d - ev.enteredDay)
  else []

/-- The waits pushed on the day described by `lg`. -/
def recOf (p : Params) (lg : DayLog) : List Nat :=
  recordedOf (decide (p.warmup ≤ (lg.day : ℚ))) lg.day lg.events

/-- Relation between one day's log and the queue length `prevQ` at the start of
that day: conservation, the served-count law, the arrivals decomposition, and
per-event facts. -/
def DayOK (p : Params) (lenNat : Nat) (prevQ : Nat) (lg : DayLog) : Prop :=
  lg.qlen + servedOf lg = prevQ + lg.arrivals
  ∧ servedOf lg = min (capOf p.capacityPerDay) (prevQ + lg.arrivals)
  ∧ lg.arrivals = (if lg.day < lenNat then lg.pois + lg.futHere else 0)
  ∧ (∀ ev ∈ lg.events, ev.enteredDay ≤ lg.day)
  ∧ (∀ ev ∈ lg.events, ev.willRebook = true →
      ev.returnDay = lg.day + rebookOffOf p.rebookDelay
      ∧ ev.dropped = !decide (ev.returnDay < lenNat))

/-- `DayOK` chained along the run, threading each day's closing queue length
into the next day. -/
def LogsOK (p : Params) (lenNat : Nat) : Nat → List DayLog → Prop
  | _, [] => True
  | prevQ, lg :: rest => DayOK p lenNat prevQ lg ∧ LogsOK p lenNat lg.qlen rest

/-- The queue length after the last logged day (`q0` when nothing is logged). -/
def endQ (q0 : Nat) : List DayLog → Nat
  | [] => q0
  | lg :: rest => endQ lg.qlen rest

theorem serveLoop_queue (dn rb : ℚ) (off : Nat) (w : Bool) (d : Nat) :
    ∀ (s : Nat) (st : Core),
      (serveLoop dn rb off w d s st).core.queue
        = st.queue.drop (serveLoop dn rb off w d s st).events.length
  | 0, st => by simp [serveLoop]
  | s + 1, st => by
    have ih := serveLoop_queue dn rb off w d s
    cases hq : st.queue with
    | nil => simp [serveLoop, hq]
    | cons e rest =>
      simp only [serveLoop, hq]
      split_ifs with h1 h2 <;> simp [ih]

theorem serveLoop_events_length (dn rb : ℚ) (off : Nat) (w : Bool) (d : Nat) :
    ∀ (s : Nat) (st : Core),
      (serveLoop dn rb off w d s st).events.length = min s st.queue.length
  | 0, st => by simp [serveLoop]
  | s + 1, st => by
    have ih := serveLoop_events_length dn rb off w d s
    cases hq : st.queue with
    | nil => simp [serveLoop, hq]
    | cons e rest =>
      simp only [serveLoop, hq]
      split_ifs with h1 h2 <;>
        simp [ih, List.length_cons, Nat.succ_min_succ]

theorem serveLoop_used (dn rb : ℚ) (off : Nat) (w : Bool) (d : Nat) :
    ∀ (s : Nat) (st : Core),
      (serveLoop dn rb off w d s st).core.usedSlots
        = st.usedSlots + (serveLoop dn rb off w d s st).events.length
  | 0, st => by simp [serveLoop]
  | s + 1, st => by
    have ih := serveLoop_used dn rb off w d s
    cases hq : st.queue with
    | nil => simp [serveLoop, hq]
    | cons e rest =>
      simp only [serveLoop, hq]
      split_ifs with h1 h2 <;>
        simp [ih, Nat.add_comm, Nat.add_assoc, Nat.add_left_comm]

theorem serveLoop_waits (dn rb : ℚ) (off : Nat) (w : Bool) (d : Nat) :
    ∀ (s : Nat) (st : Core),
      (serveLoop dn rb off w d s st).core.waits
        = st.waits ++ recordedOf w d (serveLoop dn rb off w d s st).events
  | 0, st => by simp [serveLoop, recordedOf]
  | s + 1, st => by
    have ih := serveLoop_waits dn rb off w d s
    cases hq : st.queue with
    | nil => simp [serveLoop, hq, recordedOf]
    | cons e rest =>
      simp only [serveLoop, hq]
      split_ifs with h1 h2 h3 <;> simp_all [recordedOf, ih]

theorem serveLoop_fa_length (dn rb : ℚ) (off : Nat) (w : Bool) (d : Nat) :
    ∀ (s : Nat) (st : Core),
      (serveLoop dn rb off w d s st).core.futureAdds.length = st.futureAdds.length
  | 0, st => by simp [serveLoop]
  | s + 1, st => by
    have ih := serveLoop_fa_length dn rb off w d s
    cases hq : st.queue with
    | nil => simp [serveLoop, hq]
    | cons e rest =>
      simp only [serveLoop, hq]
      split_ifs with h1 h2 <;> simp [ih]

theorem serveLoop_events_entered (dn rb : ℚ) (off : Nat) (w : Bool) (d : Nat) :
    ∀ (s : Nat) (st : Core),
      ∀ ev ∈ (serveLoop dn rb off w d s st).events, ev.enteredDay ∈ st.queue
  | 0, st => by simp [serveLoop]
  | s + 1, st => by
    have ih := serveLoop_events_entered dn rb off w d s
    cases hq : st.queue with
    | nil => simp [serveLoop, hq]
    | cons e rest =>
      simp only [serveLoop, hq]
      split_ifs with h1 h2 h3 <;>
      (intro ev hev
       rcases List.mem_cons.mp hev with h | h
       · subst h; exact List.mem_cons_self _ _
       · exact List.mem_cons_of_mem _ (ih _ ev h))

theorem serveLoop_events_rebook (dn rb : ℚ) (off : Nat) (w : Bool) (d : Nat) :
    ∀ (s : Nat) (st : Core),
      ∀ ev ∈ (serveLoop dn rb off w d s st).events, ev.willRebook = true →
        ev.returnDay = d + off
        ∧ ev.dropped = !decide (ev.returnDay < st.futureAdds.length)
  | 0, st => by simp [serveLoop]
  | s + 1, st => by
    have ih := serveLoop_events_rebook dn rb off w d s
    cases hq : st.queue with
    | nil => simp [serveLoop, hq]
    | cons e rest =>
      simp only [serveLoop, hq]
      split_ifs with h1 h2 h3 <;>
      (intro ev hev hw
       rcases List.mem_cons.mp hev with h | h
       · subst h
         first
         | exact ⟨rfl, rfl⟩
         | simp at hw
       · have hres := ih _ ev h hw
         simpa [List.length_set] using hres)

theorem endQ_cons (q0 : Nat) (a : DayLog) (L : List DayLog) :
    endQ q0 (a :: L) = endQ a.qlen L := rfl

theorem endQ_append :
    ∀ (q0 : Nat) (L : List DayLog) (lg : DayLog), endQ q0 (L ++ [lg]) = lg.qlen
  | _, [], _ => rfl
  | _, a :: L, lg => by
    rw [List.cons_append, endQ_cons]
    exact endQ_append a.qlen L lg

theorem LogsOK_append (p : Params) (n : Nat) :
    ∀ (L : List DayLog) (q0 : Nat) (lg : DayLog),
      LogsOK p n q0 L → DayOK p n (endQ q0 L) lg → LogsOK p n q0 (L ++ [lg])
  | [], q0, lg, _, hd => by
    refine ⟨?_, trivial⟩
    simpa [endQ] using hd
  | a :: L, q0, lg, hL, hd => by
    obtain ⟨ha, hrest⟩ := hL
    rw [endQ_cons] at hd
    exact ⟨ha, LogsOK_append p n L a.qlen lg hrest hd⟩

theorem LogsOK_mem (p : Params) (n : Nat) :
    ∀ (L : List DayLog) (q0 : Nat), LogsOK p n q0 L →
      ∀ lg ∈ L, ∃ q, DayOK p n q lg
  | [], _, _, lg, hlg => absurd hlg (List.not_mem_nil lg)
  | a :: L, q0, hL, lg, hlg => by
    obtain ⟨ha, hrest⟩ := hL
    rcases List.mem_cons.mp hlg with h | h
    · exact ⟨q0, h ▸ ha⟩
    · exact LogsOK_mem p n L a.qlen hrest lg h

theorem LogsOK_getD (p : Params) (n : Nat) :
    ∀ (L : List DayLog) (q0 : Nat), LogsOK p n q0 L →
      ∀ i, i < L.length →
        DayOK p n (if i = 0 then q0 else (L.getD (i - 1) default).qlen)
          (L.getD i default)
  | [], _, _, i, hi => absurd hi (by simp)
  | a :: L, q0, hL, i, hi => by
    obtain ⟨ha, hrest⟩ := hL
    cases i with
    | zero => simpa using ha
    | succ j =>
      have hj : j < L.length := by simpa using hi
      have := LogsOK_getD p n L a.qlen hrest j hj
      cases j with
      | zero => simpa using this
      | succ m => simpa using this

/-- The invariant threaded through the day loop: the recorded `queueSizes` are
the logged closing lengths, the logged days are `0, 1, …`, the live queue
length matches the last log, every queued entry day is in the past, the pushed
waits are exactly those reconstructed from the logs, used slots never exceed
offered slots, `futureAdds` keeps its initial length, and the logs are chained
by `DayOK`. -/
structure RInv (p : Params) (d : Nat) (st : RunState) : Prop where
  qs_eq : st.queueSizes = st.logs.map (fun lg => lg.qlen)
  days_eq : st.logs.map (fun lg => lg.day) = List.range d
  queue_len : st.core.queue.length = endQ 0 st.logs
  queue_mem : ∀ x ∈ st.core.queue, x < d
  waits_eq : st.core.waits = st.logs.bind (recOf p)
  used_le : st.core.usedSlots ≤ st.totalSlots
  fa_len : st.core.futureAdds.length = lenNatOf p
  logs_ok : LogsOK p (lenNatOf p) 0 st.logs

theorem dayStep_inv (e : ℚ → ℚ) (p : Params) (d : Nat) (st : RunState)
    (h : RInv p d st) : RInv p (d + 1) (dayStep e p d st) := by
  set pk := poisson e p.arrivalRate st.core.a with hpk
  set futHere := st.core.futureAdds.getD d 0 with hfh
  set arrivals := (if d < st.core.futureAdds.length then pk.1 + futHere else 0) with harr
  set queue1 := st.core.queue ++ List.replicate arrivals d with hq1
  set cap := capOf p.capacityPerDay with hcap
  set w := decide (p.warmup ≤ (d : ℚ)) with hw
  set c1 : Core := { a := pk.2, queue := queue1, futureAdds := st.core.futureAdds,
                     waits := st.core.waits, usedSlots := st.core.usedSlots } with hc1
  set so := serveLoop p.dnaRate p.rebookRate (rebookOffOf p.rebookDelay) w d cap c1 with hso
  set lg : DayLog := ⟨d, pk.1, futHere, arrivals, so.events, so.core.queue.length⟩ with hlg
  have hstep : dayStep e p d st =
      { core := so.core,
        totalSlots := st.totalSlots + cap,
        queueSizes := st.queueSizes ++ [so.core.queue.length],
        logs := st.logs ++ [lg] } := rfl
  have hq1len : queue1.length = st.core.queue.length + arrivals := by
    simp [hq1]
  have hserved : so.events.length = min cap queue1.length := by
    rw [hso]
    exact serveLoop_events_length _ _ _ _ _ _ c1
  have hqueue : so.core.queue = queue1.drop so.events.length := by
    rw [hso]
    exact serveLoop_queue _ _ _ _ _ _ c1
  have hqlen : so.core.queue.length + so.events.length = queue1.length := by
    rw [hqueue, List.length_drop]
    have hle : so.events.length ≤ queue1.length := by
      rw [hserved]; exact Nat.min_le_right _ _
    omega
  rw [hstep]
  constructor
  · simpa [hlg] using congrArg (· ++ [so.core.queue.length]) h.qs_eq
  · simp [hlg, h.days_eq, List.range_succ]
  · simp [hlg, endQ_append]
  · intro x hx
    have hx1 : x ∈ queue1 := by
      rw [hqueue] at hx
      exact List.mem_of_mem_drop hx
    rw [hq1] at hx1
    rcases List.mem_append.mp hx1 with hx2 | hx2
    · exact Nat.lt_succ_of_lt (h.queue_mem x hx2)
    · have : x = d := List.eq_of_mem_replicate hx2
      omega
  · have hwts : so.core.waits = c1.waits ++ recordedOf w d so.events := by
      rw [hso]
      exact serveLoop_waits _ _ _ _ _ _ c1
    have : recordedOf w d so.events = recOf p lg := by
      simp [recOf, hlg, hw]
    rw [hwts, this]
    simp [hc1, h.waits_eq, hlg]
  · have husd : so.core.usedSlots = c1.usedSlots + so.events.length := by
      rw [hso]
      exact serveLoop_used _ _ _ _ _ _ c1
    have hsc : so.events.length ≤ cap := by
      rw [hserved]; exact Nat.min_le_left _ _
    have := h.used_le
    simp only [husd, hc1]
    omega
  · have : so.core.futureAdds.length = c1.futureAdds.length := by
      rw [hso]
      exact serveLoop_fa_length _ _ _ _ _ _ c1
    rw [this]
    exact h.fa_len
  · refine LogsOK_append p (lenNatOf p) st.logs 0 lg h.logs_ok ?_
    rw [← h.queue_len]
    refine ⟨?_, ?_, ?_, ?_, ?_⟩
    · show so.core.queue.length + so.events.length = st.core.queue.length + arrivals
      omega
    · show so.events.length = min cap (st.core.queue.length + arrivals)
      rw [hserved, hq1len]
    · show arrivals = if d < lenNatOf p then pk.1 + futHere else 0
      rw [harr, h.fa_len]
    · intro ev hev
      show ev.enteredDay ≤ d
      have hev2 : ev ∈ (serveLoop p.dnaRate p.rebookRate (rebookOffOf p.rebookDelay)
          w d cap c1).events := by
        rw [← hso]; exact hev
      have hmem : ev.enteredDay ∈ c1.queue :=
        serveLoop_events_entered p.dnaRate p.rebookRate (rebookOffOf p.rebookDelay)
          w d cap c1 ev hev2
      have hmem1 : ev.enteredDay ∈ st.core.queue ++ List.replicate arrivals d := by
        rw [← hq1]; exact hmem
      rcases List.mem_append.mp hmem1 with hx2 | hx2
      · exact le_of_lt (h.queue_mem _ hx2)
      · exact le_of_eq (List.eq_of_mem_replicate hx2)
    · intro ev hev hwr
      show ev.returnDay = d + rebookOffOf p.rebookDelay
        ∧ ev.dropped = !decide (ev.returnDay < lenNatOf p)
      have hev2 : ev ∈ (serveLoop p.dnaRate p.rebookRate (rebookOffOf p.rebookDelay)
          w d cap c1).events := by
        rw [← hso]; exact hev
      have hrb := serveLoop_events_rebook p.dnaRate p.rebookRate (rebookOffOf p.rebookDelay)
        w d cap c1 ev hev2 hwr
      have hlen : c1.futureAdds.length = lenNatOf p := h.fa_len
      exact ⟨hrb.1, by rw [hrb.2, hlen]⟩

theorem runFrom_inv (e : ℚ → ℚ) (p : Params) :
    ∀ (n d : Nat) (st : RunState),
      RInv p d st → RInv p (d + n) (runFrom e p d n st)
  | 0, d, st, h => by simpa [runFrom] using h
  | n + 1, d, st, h => by
    have hrec := runFrom_inv e p n (d + 1) (dayStep e p d st) (dayStep_inv e p d st h)
    have harith : d + 1 + n = d + (n + 1) := by omega
    rw [harith] at hrec
    simpa [runFrom] using hrec

theorem initState_inv (p : Params) : RInv p 0 (initState p) := by
  refine ⟨rfl, rfl, rfl, ?_, rfl, le_refl 0, ?_, trivial⟩
  · intro x hx
    exact absurd hx (List.not_mem_nil x)
  · simp [initState, lenNatOf]

theorem simRun_inv (e : ℚ → ℚ) (p : Params) :
    RInv p (numDaysOf p.days) (simRun e p) := by
  have := runFrom_inv e p (numDaysOf p.days) 0 (initState p) (initState_inv p)
  simpa [simRun] using this

theorem simulate_ok_elim (e : ℚ → ℚ) (p : Params) (r : SimResult)
    (hr : simulate e p = .ok r) : r = mkResult (simRun e p) := by
  unfold simulate at hr
  split_ifs at hr with h1 h2
  injection hr with h3
  exact h3.symm

theorem quantile_idx_le (n : Nat) (q : ℚ) (h0 : 0 ≤ q) (h1 : q ≤ 1) :
    (⌊((n - 1 : Nat) : ℚ) * q⌋).toNat ≤ n - 1 := by
  have hcast : (0 : ℚ) ≤ ((n - 1 : Nat) : ℚ) := Nat.cast_nonneg _
  have hle : ((n - 1 : Nat) : ℚ) * q ≤ ((n - 1 : Nat) : ℚ) :=
    mul_le_of_le_one_right hcast h1
  have hfl := Int.floor_le_floor hle
  rw [Int.floor_natCast] at hfl
  omega

theorem quantile_eq_of_nonempty (ws : List Nat) (q : ℚ) (hne : ws ≠ []) :
    quantile ws q = ws.get? (⌊((ws.length - 1 : Nat) : ℚ) * q⌋).toNat := by
  unfold quantile
  rw [if_neg (by simpa using hne)]

theorem quantile_isSome (ws : List Nat) (q : ℚ) (h0 : 0 ≤ q) (h1 : q ≤ 1)
    (hne : ws ≠ []) : (quantile ws q).isSome = true := by
  rw [quantile_eq_of_nonempty ws q hne]
  have hl : 0 < ws.length := List.length_pos.mpr hne
  have := quantile_idx_le ws.length q h0 h1
  rw [List.get?_eq_get (by omega)]
  rfl

/-- C1: the kernel is a deterministic pure function of its parameter record:
two invocations of `simulate` on equal records (same seed included) return the
same value — in particular the same `queueSizes`, the same `waits` and the
same `metrics`. -/
theorem simulate_deterministic (e : ℚ → ℚ) (p1 p2 : Params) (h : p1 = p2) :
    simulate e p1 = simulate e p2
    ∧ ∀ r1 r2, simulate e p1 = .ok r1 → simulate e p2 = .ok r2 →
        r1.queueSizes = r2.queueSizes ∧ r1.waits = r2.waits ∧ r1.metrics = r2.metrics := by
  subst h
  refine ⟨rfl, ?_⟩
  intro r1 r2 h1 h2
  rw [h1] at h2
  injection h2 with h3
  exact ⟨congrArg SimResult.queueSizes h3, congrArg SimResult.waits h3,
    congrArg SimResult.metrics h3⟩

/-- C7: `samplePoisson` returns 0 immediately when `lambda ≤ 0`; otherwise it
implements the Knuth multiplicative method: with `L = exp(-lambda)`, the
accumulator after `j` draws is `drawProd a j`, the loop keeps drawing while the
accumulator exceeds `L`, and the returned value `k` is the number of draws
minus one — so all of the first `k` accumulator values exceed `L`, the
`(k+1)`-st is at or below `L`, and the generator state has advanced `k + 1`
times.  (The result is a `Nat`, hence a non-negative integer.) -/
theorem poisson_spec (e : ℚ → ℚ) (lambda : ℚ) (a : Nat) :
    (lambda ≤ 0 → poisson e lambda a = (0, a))
    ∧ (0 < lambda → 0 < e (-lambda) →
        drawProd a ((poisson e lambda a).1 + 1) ≤ e (-lambda)
        ∧ (∀ j, 1 ≤ j → j ≤ (poisson e lambda a).1 → e (-lambda) < drawProd a j)
        ∧ (poisson e lambda a).2 = mulberry32Next^[(poisson e lambda a).1 + 1] a) := by
  constructor
  · intro hle
    unfold poisson
    rw [if_pos hle]
  · intro hpos hL
    have hnle : ¬ lambda ≤ 0 := not_le.mpr hpos
    have h1 : poisson e lambda a
        = (Nat.find (exists_drawProd_le a (e (-lambda)) hL),
           mulberry32Next^[Nat.find (exists_drawProd_le a (e (-lambda)) hL) + 1] a) := by
      unfold poisson
      rw [if_neg hnle, dif_pos hL]
    rw [h1]
    refine ⟨Nat.find_spec (exists_drawProd_le a (e (-lambda)) hL), ?_, rfl⟩
    intro j hj1 hjk
    have hmin := Nat.find_min (exists_drawProd_le a (e (-lambda)) hL)
      (m := j - 1) (by omega)
    have : j - 1 + 1 = j := by omega
    rw [this] at hmin
    exact lt_of_not_le hmin

theorem simRun_logs_length (e : ℚ → ℚ) (p : Params) :
    (simRun e p).logs.length = numDaysOf p.days := by
  have h := (simRun_inv e p).days_eq
  have h2 := congrArg List.length h
  simpa using h2

theorem simRun_qs_length (e : ℚ → ℚ) (p : Params) :
    (simRun e p).queueSizes.length = numDaysOf p.days := by
  rw [(simRun_inv e p).qs_eq, List.length_map, simRun_logs_length]

/-- The log of day `d` of a run (used to state per-day claims). -/
def dayAt (e : ℚ → ℚ) (p : Params) (d : Nat) : DayLog :=
  (simRun e p).logs.getD d default

theorem simRun_qs_getD (e : ℚ → ℚ) (p : Params) (d : Nat)
    (hd : d < (simRun e p).logs.length) :
    (simRun e p).queueSizes.getD d 0 = (dayAt e p d).qlen := by
  rw [(simRun_inv e p).qs_eq]
  unfold dayAt
  rw [List.getD_eq_getElem?_getD, List.getD_eq_getElem?_getD,
    List.getElem?_map, List.getElem?_eq_getElem hd]
  rfl

theorem dayAt_day (e : ℚ → ℚ) (p : Params) (d : Nat)
    (hd : d < (simRun e p).logs.length) : (dayAt e p d).day = d := by
  have h := (simRun_inv e p).days_eq
  have h1 : ((simRun e p).logs.map (fun lg => lg.day))[d]?
      = (List.range (numDaysOf p.days))[d]? := by rw [h]
  rw [List.getElem?_map, List.getElem?_eq_getElem hd,
    List.getElem?_range (by rwa [simRun_logs_length] at hd),
    Option.map_some'] at h1
  injection h1 with h2
  unfold dayAt
  rw [List.getD_eq_getElem?_getD, List.getElem?_eq_getElem hd]
  exact h2

theorem dayAt_ok (e : ℚ → ℚ) (p : Params) (d : Nat)
    (hd : d < (simRun e p).logs.length) :
    DayOK p (lenNatOf p)
      (if d = 0 then 0 else (dayAt e p (d - 1)).qlen) (dayAt e p d) := by
  have h := LogsOK_getD p (lenNatOf p) (simRun e p).logs 0 (simRun_inv e p).logs_ok d hd
  unfold dayAt
  simpa using h

/-- C3: for every simulated day `d`, the recorded queue size satisfies
`queueSizes[d] = queueSizes[d-1] + arrivals(d) - servedThisDay(d)` with
`queueSizes[-1] = 0`, where `arrivals(d)` is the Poisson draw plus
`futureAdds[d]` (whenever day `d` indexes into `futureAdds`, which holds for
all spec-conforming parameters), and the number served on day `d` is at most
`min(cap(d), queue length before the service loop on day d)` (the run in fact
achieves that minimum). -/
theorem simulate_conservation (e : ℚ → ℚ) (p : Params) (r : SimResult)
    (hr : simulate e p = .ok r) (d : Nat) (hd : d < r.queueSizes.length) :
    ((r.queueSizes.getD d 0 : ℤ)
        = (if d = 0 then 0 else (r.queueSizes.getD (d - 1) 0 : ℤ))
          + ((dayAt e p d).arrivals : ℤ) - (servedOf (dayAt e p d) : ℤ))
    ∧ servedOf (dayAt e p d)
        ≤ min (capOf p.capacityPerDay)
            ((if d = 0 then 0 else r.queueSizes.getD (d - 1) 0)
              + (dayAt e p d).arrivals)
    ∧ (d < lenNatOf p →
        (dayAt e p d).arrivals = (dayAt e p d).pois + (dayAt e p d).futHere) := by
  have hrw : r = mkResult (simRun e p) := simulate_ok_elim e p r hr
  have hqs : r.queueSizes = (simRun e p).queueSizes := by rw [hrw]; rfl
  rw [hqs] at hd ⊢
  have hlen : (simRun e p).queueSizes.length = (simRun e p).logs.length := by
    rw [simRun_qs_length, simRun_logs_length]
  have hdl : d < (simRun e p).logs.length := by omega
  obtain ⟨hcons, hmin, harr, _, _⟩ := dayAt_ok e p d hdl
  have hgetd : (simRun e p).queueSizes.getD d 0 = (dayAt e p d).qlen :=
    simRun_qs_getD e p d hdl
  have hprev : (if d = 0 then 0 else (simRun e p).queueSizes.getD (d - 1) 0)
      = (if d = 0 then 0 else (dayAt e p (d - 1)).qlen) := by
    by_cases h0 : d = 0
    · simp [h0]
    · rw [if_neg h0, if_neg h0, simRun_qs_getD e p (d - 1) (by omega)]
  refine ⟨?_, ?_, ?_⟩
  · by_cases h0 : d = 0
    · simp only [if_pos h0] at hcons ⊢
      rw [hgetd]
      omega
    · simp only [if_neg h0] at hcons ⊢
      rw [hgetd, simRun_qs_getD e p (d - 1) (by omega)]
      omega
  · by_cases h0 : d = 0
    · simp only [if_pos h0] at hmin ⊢
      unfold servedOf at hmin ⊢
      omega
    · simp only [if_neg h0] at hmin ⊢
      rw [simRun_qs_getD e p (d - 1) (by omega)]
      unfold servedOf at hmin ⊢
      omega
  · intro hlt
    rw [harr, dayAt_day e p d hdl, if_pos hlt]

/-- C5: the returned utilisation is `usedSlots / totalSlots` when
`totalSlots > 0` and `0` otherwise, where both counters accumulate over the
whole horizon including warm-up days, and it always satisfies
`0 ≤ utilisation ≤ 1`. -/
theorem simulate_utilisation_bounds (e : ℚ → ℚ) (p : Params) (r : SimResult)
    (hcap : 0 ≤ p.capacityPerDay) (harr : 0 ≤ p.arrivalRate)
    (hr : simulate e p = .ok r) :
    r.metrics.utilisation
      = (if 0 < (simRun e p).totalSlots
         then ((simRun e p).core.usedSlots : ℚ) / ((simRun e p).totalSlots : ℚ)
         else 0)
    ∧ 0 ≤ r.metrics.utilisation ∧ r.metrics.utilisation ≤ 1 := by
  have hrw : r = mkResult (simRun e p) := simulate_ok_elim e p r hr
  have hut : r.metrics.utilisation
      = (if 0 < (simRun e p).totalSlots
         then ((simRun e p).core.usedSlots : ℚ) / ((simRun e p).totalSlots : ℚ)
         else 0) := by rw [hrw]; rfl
  refine ⟨hut, ?_, ?_⟩ <;> rw [hut]
  · split_ifs with h
    · positivity
    · exact le_refl 0
  · split_ifs with h
    · rw [div_le_one (by exact_mod_cast h)]
      exact_mod_cast (simRun_inv e p).used_le
    · exact zero_le_one

/-- C6: every element of the returned waits collection corresponds to an
attended (non-DNA) service whose service day `d` satisfies `d ≥ warmup` — the
warm-up exclusion is decided by the service day, not the entry day — its value
equals service day minus entry day (entry day being at most the service day),
and `nSeen` equals the number of elements of `waits`. -/
theorem simulate_warmup_exclusion (e : ℚ → ℚ) (p : Params) (r : SimResult)
    (hr : simulate e p = .ok r) :
    (∀ wv ∈ r.waits, ∃ lg ∈ (simRun e p).logs, ∃ ev ∈ lg.events,
        ev.isDNA = false ∧ p.warmup ≤ (lg.day : ℚ)
        ∧ ev.enteredDay ≤ lg.day ∧ wv = lg.day - ev.enteredDay)
    ∧ r.metrics.nSeen = r.waits.length := by
  have hrw : r = mkResult (simRun e p) := simulate_ok_elim e p r hr
  constructor
  · intro wv hwv
    have hwv2 : wv ∈ (simRun e p).core.waits := by
      have : r.waits = List.insertionSort (· ≤ ·) (simRun e p).core.waits := by
        rw [hrw]; rfl
      rw [this] at hwv
      exact (List.mem_insertionSort (· ≤ ·)).mp hwv
    rw [(simRun_inv e p).waits_eq] at hwv2
    obtain ⟨lg, hlg, hrec⟩ := List.mem_bind.mp hwv2
    refine ⟨lg, hlg, ?_⟩
    unfold recOf recordedOf at hrec
    by_cases hw : p.warmup ≤ (lg.day : ℚ)
    · rw [if_pos (by simpa using hw)] at hrec
      obtain ⟨ev, hev, hval⟩ := List.mem_map.mp hrec
      have hfil := List.mem_filter.mp hev
      refine ⟨ev, hfil.1, by simpa using hfil.2, hw, ?_, hval.symm⟩
      obtain ⟨q, hq⟩ := LogsOK_mem p (lenNatOf p) (simRun e p).logs 0
        (simRun_inv e p).logs_ok lg hlg
      exact hq.2.2.2.1 ev hfil.1
    · rw [if_neg (by simpa using hw)] at hrec
      exact absurd hrec (List.not_mem_nil wv)
  · rw [hrw]; rfl

/-- C8: with `capacityPerDay = 0` and any positive arrival rate, the queue only
grows — the `queueSizes` sequence is monotonically non-decreasing — and the
waits collection is empty. -/
theorem simulate_zero_capacity (e : ℚ → ℚ) (p : Params) (r : SimResult)
    (hcap : p.capacityPerDay = 0) (harr : 0 < p.arrivalRate)
    (hr : simulate e p = .ok r) :
    (∀ i j, i ≤ j → j < r.queueSizes.length →
        r.queueSizes.getD i 0 ≤ r.queueSizes.getD j 0)
    ∧ r.waits = [] := by
  have hrw : r = mkResult (simRun e p) := simulate_ok_elim e p r hr
  have hcap0 : capOf p.capacityPerDay = 0 := by
    rw [hcap]
    norm_num [capOf]
  have hqs : r.queueSizes = (simRun e p).queueSizes := by rw [hrw]; rfl
  have hserved0 : ∀ d, d < (simRun e p).logs.length → servedOf (dayAt e p d) = 0 := by
    intro d hd
    have h := (dayAt_ok e p d hd).2.1
    rw [hcap0] at h
    simpa using h
  constructor
  · rw [hqs]
    have hadj : ∀ m, m + 1 < (simRun e p).logs.length →
        (simRun e p).queueSizes.getD m 0 ≤ (simRun e p).queueSizes.getD (m + 1) 0 := by
      intro m hm
      have hcons := (dayAt_ok e p (m + 1) hm).1
      have hs := hserved0 (m + 1) hm
      rw [hs] at hcons
      have hg1 : (simRun e p).queueSizes.getD (m + 1) 0 = (dayAt e p (m + 1)).qlen :=
        simRun_qs_getD e p (m + 1) hm
      have hg0 : (simRun e p).queueSizes.getD m 0 = (dayAt e p m).qlen :=
        simRun_qs_getD e p m (by omega)
      rw [if_neg (by omega : ¬ m + 1 = 0)] at hcons
      simp only [Nat.add_sub_cancel] at hcons
      omega
    have hlen : (simRun e p).queueSizes.length = (simRun e p).logs.length := by
      rw [simRun_qs_length, simRun_logs_length]
    intro i j hij hj
    induction j with
    | zero =>
      have : i = 0 := by omega
      rw [this]
    | succ n ih =>
      rcases Nat.lt_or_ge i (n + 1) with hlt | hge
      · exact le_trans (ih (by omega) (by omega)) (hadj n (by omega))
      · have : i = n + 1 := by omega
        rw [this]
  · have hevs : ∀ lg ∈ (simRun e p).logs, recOf p lg = [] := by
      intro lg hlg
      obtain ⟨q, hq⟩ := LogsOK_mem p (lenNatOf p) (simRun e p).logs 0
        (simRun_inv e p).logs_ok lg hlg
      have h := hq.2.1
      rw [hcap0] at h
      have : lg.events = [] := by
        have : servedOf lg = 0 := by simpa using h
        unfold servedOf at this
        exact List.eq_nil_of_length_eq_zero this
      unfold recOf recordedOf
      rw [this]
      split_ifs <;> rfl
    have hwnil : (simRun e p).core.waits = [] := by
      rw [(simRun_inv e p).waits_eq]
      rw [List.eq_nil_iff_forall_not_mem]
      intro x hx
      obtain ⟨lg, hlg, hrec⟩ := List.mem_bind.mp hx
      rw [hevs lg hlg] at hrec
      exact absurd hrec (List.not_mem_nil x)
    have : r.waits = List.insertionSort (· ≤ ·) (simRun e p).core.waits := by
      rw [hrw]; rfl
    rw [this, hwnil]
    rfl

/-- C10 (implicit): when `rebookDelay` is a non-negative integer `k` and
`days` is an integer `m ≥ 1`, every rebooking computed on a service day `d`
has `returnDay = d + k < m + k + 2 = futureAdds.length`, so the bounds guard
always passes and the silent-drop branch is unreachable: no rebooking is ever
dropped. -/
theorem simulate_no_dropped_rebooks (e : ℚ → ℚ) (p : Params) (k m : Nat)
    (hrd : p.rebookDelay = (k : ℚ)) (hdays : p.days = (m : ℚ)) (hm : 1 ≤ m) :
    ∀ lg ∈ (simRun e p).logs, ∀ ev ∈ lg.events, ev.willRebook = true →
      ev.returnDay = lg.day + k ∧ ev.returnDay < lenNatOf p ∧ ev.dropped = false := by
  have hoff : rebookOffOf p.rebookDelay = k := by
    rw [hrd]
    unfold rebookOffOf
    rw [Int.floor_natCast]
    exact Int.toNat_natCast k
  have hnum : numDaysOf p.days = m := by
    rw [hdays]
    unfold numDaysOf
    rw [Int.ceil_natCast]
    exact Int.toNat_natCast m
  have hlen : lenNatOf p = m + k + 2 := by
    unfold lenNatOf lenQOf
    rw [hdays, hrd]
    have : (m : ℚ) + (k : ℚ) + 2 = ((m + k + 2 : ℕ) : ℚ) := by push_cast; ring
    rw [this, Rat.num_natCast]
    exact Int.toNat_natCast _
  intro lg hlg ev hev hwr
  have hday : lg.day < m := by
    have h := (simRun_inv e p).days_eq
    have hmem : lg.day ∈ (simRun e p).logs.map (fun l => l.day) :=
      List.mem_map_of_mem _ hlg
    rw [h, hnum] at hmem
    exact List.mem_range.mp hmem
  obtain ⟨q, hq⟩ := LogsOK_mem p (lenNatOf p) (simRun e p).logs 0
    (simRun_inv e p).logs_ok lg hlg
  obtain ⟨hret, hdrop⟩ := hq.2.2.2.2 ev hev hwr
  rw [hoff] at hret
  have hlt : ev.returnDay < lenNatOf p := by
    rw [hret, hlen]
    omega
  refine ⟨hret, hlt, ?_⟩
  rw [hdrop]
  simp [hlt]

/-- C4: the returned waits array is the ascending sort; if it is empty,
`quantile(q)`, the mean and the within-threshold fractions are all the
"no value" sentinel; if it is nonempty of size `n`, `quantile(q)` is the
element at index `floor((n-1)*q)` of the sorted array (discrete nearest-rank,
no interpolation), and `medianWait = quantile(0.5)`, `p90Wait = quantile(0.9)`. -/
theorem simulate_quantile_spec (e : ℚ → ℚ) (p : Params) (r : SimResult)
    (hr : simulate e p = .ok r) :
    List.Sorted (· ≤ ·) r.waits
    ∧ (r.waits = [] →
        r.metrics.medianWait = none ∧ r.metrics.p90Wait = none
        ∧ r.metrics.meanWait = none ∧ r.metrics.within14 = none
        ∧ r.metrics.within28 = none ∧ r.metrics.within42 = none
        ∧ ∀ q : ℚ, quantile r.waits q = none)
    ∧ (∀ q : ℚ, 0 ≤ q → q ≤ 1 → r.waits ≠ [] →
        quantile r.waits q
          = r.waits.get? (⌊((r.waits.length - 1 : Nat) : ℚ) * q⌋).toNat
        ∧ (quantile r.waits q).isSome = true)
    ∧ r.metrics.medianWait = quantile r.waits (1 / 2)
    ∧ r.metrics.p90Wait = quantile r.waits (9 / 10) := by
  have hrw : r = mkResult (simRun e p) := simulate_ok_elim e p r hr
  have hsorted : List.Sorted (· ≤ ·) r.waits := by
    rw [hrw]
    exact List.sorted_insertionSort (· ≤ ·) _
  have hmed : r.metrics.medianWait = quantile r.waits (1 / 2) := by rw [hrw]; rfl
  have hp90 : r.metrics.p90Wait = quantile r.waits (9 / 10) := by rw [hrw]; rfl
  have hmean : r.metrics.meanWait = meanWaitOf r.waits := by rw [hrw]; rfl
  have h14 : r.metrics.within14 = withinOf r.waits 14 := by rw [hrw]; rfl
  have h28 : r.metrics.within28 = withinOf r.waits 28 := by rw [hrw]; rfl
  have h42 : r.metrics.within42 = withinOf r.waits 42 := by rw [hrw]; rfl
  refine ⟨hsorted, ?_, ?_, hmed, hp90⟩
  · intro hnil
    have hq : ∀ q : ℚ, quantile r.waits q = none := by
      intro q
      rw [hnil]
      simp [quantile]
    refine ⟨by rw [hmed]; exact hq _, by rw [hp90]; exact hq _, ?_, ?_, ?_, ?_, hq⟩
    · rw [hmean, hnil]; simp [meanWaitOf]
    · rw [h14, hnil]; simp [withinOf]
    · rw [h28, hnil]; simp [withinOf]
    · rw [h42, hnil]; simp [withinOf]
  · intro q h0 h1 hne
    exact ⟨quantile_eq_of_nonempty r.waits q hne, quantile_isSome r.waits q h0 h1 hne⟩

/-- C9: for a run whose finalized waits collection is nonempty, the derived
quantiles are ordered: `medianWait = quantile(0.5) ≤ quantile(0.9) = p90Wait`. -/
theorem simulate_quantile_monotone (e : ℚ → ℚ) (p : Params) (r : SimResult)
    (hr : simulate e p = .ok r) (hne : r.waits ≠ []) :
    ∃ m5 m9, r.metrics.medianWait = some m5 ∧ r.metrics.p90Wait = some m9
      ∧ m5 ≤ m9 := by
  have hrw : r = mkResult (simRun e p) := simulate_ok_elim e p r hr
  have hsorted : List.Sorted (· ≤ ·) r.waits := by
    rw [hrw]
    exact List.sorted_insertionSort (· ≤ ·) _
  have hmed : r.metrics.medianWait = quantile r.waits (1 / 2) := by rw [hrw]; rfl
  have hp90 : r.metrics.p90Wait = quantile r.waits (9 / 10) := by rw [hrw]; rfl
  have hlen : 0 < r.waits.length := List.length_pos.mpr hne
  have hle5 : (⌊((r.waits.length - 1 : Nat) : ℚ) * (1 / 2)⌋).toNat
      ≤ r.waits.length - 1 := quantile_idx_le r.waits.length (1 / 2) (by norm_num) (by norm_num)
  have hle9 : (⌊((r.waits.length - 1 : Nat) : ℚ) * (9 / 10)⌋).toNat
      ≤ r.waits.length - 1 := quantile_idx_le r.waits.length (9 / 10) (by norm_num) (by norm_num)
  have hi59 : (⌊((r.waits.length - 1 : Nat) : ℚ) * (1 / 2)⌋).toNat
      ≤ (⌊((r.waits.length - 1 : Nat) : ℚ) * (9 / 10)⌋).toNat := by
    apply Int.toNat_le_toNat
    apply Int.floor_le_floor
    exact mul_le_mul_of_nonneg_left (by norm_num) (Nat.cast_nonneg _)
  have h5lt : (⌊((r.waits.length - 1 : Nat) : ℚ) * (1 / 2)⌋).toNat < r.waits.length := by
    omega
  have h9lt : (⌊((r.waits.length - 1 : Nat) : ℚ) * (9 / 10)⌋).toNat < r.waits.length := by
    omega
  refine ⟨r.waits.get ⟨_, h5lt⟩, r.waits.get ⟨_, h9lt⟩, ?_, ?_, ?_⟩
  · rw [hmed, quantile_eq_of_nonempty r.waits (1 / 2) hne, List.get?_eq_get h5lt]
  · rw [hp90, quantile_eq_of_nonempty r.waits (9 / 10) hne, List.get?_eq_get h9lt]
  · exact List.Sorted.rel_get_of_le hsorted (Fin.mk_le_mk.mpr hi59)

theorem simulate_eq_ok (e : ℚ → ℚ) (p : Params) (h1 : arrayLenOK (lenQOf p))
    (h2 : pushesOK (simRun e p)) :
    simulate e p = .ok (mkResult (simRun e p)) := by
  unfold simulate
  rw [if_pos h1, if_pos h2]

theorem getD_mem_of_lt {l : List DayLog} {n : Nat} (h : n < l.length) :
    l.getD n default ∈ l := by
  rw [List.getD_eq_getElem?_getD, List.getElem?_eq_getElem h]
  exact List.getElem_mem h

theorem replicate_getD_zero (n d : Nat) :
    (List.replicate n (0 : Nat)).getD d 0 = 0 := by
  rcases Nat.lt_or_ge d n with h | h
  · rw [List.getD_eq_getElem?_getD, List.getElem?_eq_getElem (by simpa using h)]
    simp
  · rw [List.getD_eq_getElem?_getD, List.getElem?_eq_none (by simpa using h)]
    rfl

theorem serveLoop_nil (dn rb : ℚ) (off : Nat) (w : Bool) (d : Nat) (s : Nat)
    (st : Core) (h : st.queue = []) :
    serveLoop dn rb off w d s st = ⟨st, []⟩ := by
  cases s with
  | zero => rfl
  | succ n => simp [serveLoop, h]

/-- Shape of a run in which every Poisson draw is zero: the queue and the
waits stay empty, `futureAdds` stays all-zero, and every logged day has zero
arrivals and zero closing queue length. -/
structure ZeroRun (p : Params) (st : RunState) : Prop where
  queue : st.core.queue = []
  waits : st.core.waits = []
  fa : st.core.futureAdds = List.replicate (lenNatOf p) 0
  logsz : ∀ lg ∈ st.logs, lg.arrivals = 0 ∧ lg.qlen = 0

theorem dayStep_zero (e : ℚ → ℚ) (p : Params) (d : Nat) (st : RunState)
    (hz : ∀ a, (poisson e p.arrivalRate a).1 = 0)
    (h : ZeroRun p st) : ZeroRun p (dayStep e p d st) := by
  set pk := poisson e p.arrivalRate st.core.a with hpk
  set futHere := st.core.futureAdds.getD d 0 with hfh
  set arrivals := (if d < st.core.futureAdds.length then pk.1 + futHere else 0) with harr
  set queue1 := st.core.queue ++ List.replicate arrivals d with hq1
  set cap := capOf p.capacityPerDay with hcap
  set w := decide (p.warmup ≤ (d : ℚ)) with hw
  set c1 : Core := { a := pk.2, queue := queue1, futureAdds := st.core.futureAdds,
                     waits := st.core.waits, usedSlots := st.core.usedSlots } with hc1
  have harr0 : arrivals = 0 := by
    rw [harr, hz st.core.a]
    have hf0 : futHere = 0 := by
      rw [hfh, h.fa]
      exact replicate_getD_zero _ _
    rw [hf0]
    split_ifs <;> rfl
  have hq1nil : queue1 = [] := by
    rw [hq1, h.queue, harr0]
    rfl
  have hserve : serveLoop p.dnaRate p.rebookRate (rebookOffOf p.rebookDelay) w d cap c1
      = ⟨c1, []⟩ := serveLoop_nil _ _ _ _ _ _ c1 hq1nil
  have hstep : dayStep e p d st =
      { core := c1,
        totalSlots := st.totalSlots + cap,
        queueSizes := st.queueSizes ++ [c1.queue.length],
        logs := st.logs ++ [⟨d, pk.1, futHere, arrivals, [], c1.queue.length⟩] } := by
    have hd : dayStep e p d st =
        { core := (serveLoop p.dnaRate p.rebookRate (rebookOffOf p.rebookDelay) w d cap c1).core,
          totalSlots := st.totalSlots + cap,
          queueSizes := st.queueSizes
            ++ [(serveLoop p.dnaRate p.rebookRate (rebookOffOf p.rebookDelay) w d cap c1).core.queue.length],
          logs := st.logs ++ [⟨d, pk.1, futHere, arrivals,
            (serveLoop p.dnaRate p.rebookRate (rebookOffOf p.rebookDelay) w d cap c1).events,
            (serveLoop p.dnaRate p.rebookRate (rebookOffOf p.rebookDelay) w d cap c1).core.queue.length⟩] } := rfl
    rw [hd, hserve]
  rw [hstep]
  refine ⟨by simpa [hc1] using hq1nil, h.waits, h.fa, ?_⟩
  intro lg hlg
  rcases List.mem_append.mp hlg with hmem | hmem
  · exact h.logsz lg hmem
  · have : lg = ⟨d, pk.1, futHere, arrivals, [], c1.queue.length⟩ := by
      simpa using hmem
    rw [this]
    refine ⟨harr0, ?_⟩
    show c1.queue.length = 0
    have : c1.queue = [] := hq1nil
    rw [this]
    rfl

theorem runFrom_zero (e : ℚ → ℚ) (p : Params)
    (hz : ∀ a, (poisson e p.arrivalRate a).1 = 0) :
    ∀ (n d : Nat) (st : RunState),
      ZeroRun p st → ZeroRun p (runFrom e p d n st)
  | 0, d, st, h => by simpa [runFrom] using h
  | n + 1, d, st, h => by
    have hrec := runFrom_zero e p hz n (d + 1) (dayStep e p d st)
      (dayStep_zero e p d st hz h)
    simpa [runFrom] using hrec

theorem simRun_zero (e : ℚ → ℚ) (p : Params)
    (hz : ∀ a, (poisson e p.arrivalRate a).1 = 0) : ZeroRun p (simRun e p) := by
  have hinit : ZeroRun p (initState p) := by
    refine ⟨rfl, rfl, rfl, ?_⟩
    intro lg hlg
    exact absurd hlg (List.not_mem_nil lg)
  have := runFrom_zero e p hz (numDaysOf p.days) 0 (initState p) hinit
  simpa [simRun] using this

theorem pushesOK_of_zeroRun (e : ℚ → ℚ) (p : Params)
    (hz : ∀ a, (poisson e p.arrivalRate a).1 = 0)
    (hdays : numDaysOf p.days ≤ U32MAX) : pushesOK (simRun e p) := by
  have hzr := simRun_zero e p hz
  refine ⟨?_, ?_, ?_⟩
  · rw [simRun_logs_length]
    exact hdays
  · rw [hzr.waits]
    exact Nat.zero_le _
  · intro i hi
    unfold qBeforeOf
    have h1 := hzr.logsz _ (getD_mem_of_lt hi)
    by_cases h0 : i = 0
    · rw [if_pos h0, h1.1]
      exact Nat.zero_le _
    · have h2 := hzr.logsz _ (getD_mem_of_lt (show i - 1 < (simRun e p).logs.length by omega))
      rw [if_neg h0, h2.2, h1.1]
      exact Nat.zero_le _

/-- A fixed stand-in for `Math.exp` used in concrete witnesses. -/
def wExp : ℚ → ℚ := fun _ => 1

/-- With the constant-one `Math.exp` stand-in, every Poisson call returns 0:
the first accumulator value already sits at or below the threshold. -/
theorem wExp_poisson_fst_zero (lambda : ℚ) (a : Nat) :
    (poisson wExp lambda a).1 = 0 := by
  by_cases h1 : lambda ≤ 0
  · unfold poisson
    rw [if_pos h1]
  · unfold poisson
    rw [if_neg h1]
    have hL : 0 < wExp (-lambda) := by norm_num [wExp]
    rw [dif_pos hL]
    show Nat.find (exists_drawProd_le a (wExp (-lambda)) hL) = 0
    rw [Nat.find_eq_zero]
    show drawProd a 1 ≤ wExp (-lambda)
    have hb := drawProd_le_pow a 1
    have hc1 : ((M32 - 1 : ℚ) / (M32 : ℚ)) ^ 1 ≤ 1 := by norm_num [M32]
    have hw1 : wExp (-lambda) = 1 := rfl
    rw [hw1]
    exact le_trans hb hc1

/-- A concrete valid parameter record (zero arrival rate) used in witnesses. -/
def okParams : Params :=
  { arrivalRate := 0, capacityPerDay := 10, dnaRate := 12, rebookRate := 70,
    rebookDelay := 7, days := 30, warmup := 0, seed := 42 }

theorem okParams_len : arrayLenOK (lenQOf okParams) := by
  refine ⟨?_, ?_, ?_⟩ <;> norm_num [lenQOf, okParams, M32]

theorem okParams_numDays : numDaysOf okParams.days = 30 := by
  have h : okParams.days = ((30 : ℕ) : ℚ) := by norm_num [okParams]
  unfold numDaysOf
  rw [h, Int.ceil_natCast]
  rfl

theorem okParams_pushes : pushesOK (simRun wExp okParams) := by
  refine pushesOK_of_zeroRun wExp okParams (fun a => wExp_poisson_fst_zero _ a) ?_
  rw [okParams_numDays]
  norm_num [U32MAX]

/-- A parameter record on which the Array constructor succeeds (requested
`futureAdds` length 4200000002 is an integer below `2^32`) but the day loop
later pushes `queueSizes` past the `2^32 - 1` cap, since there are more than
`2^32 - 1` simulated days. -/
def hugeDaysParams : Params :=
  { arrivalRate := 0, capacityPerDay := 10, dnaRate := 12, rebookRate := 70,
    rebookDelay := -200000000, days := 4400000000, warmup := 0, seed := 42 }

/-- The push-cap throw path is captured by the model: on `hugeDaysParams` the
kernel throws even though the Array constructor guard passes. -/
theorem simulate_throws_on_huge_days :
    simulate wExp hugeDaysParams = .error "Invalid array length" := by
  have hlen : arrayLenOK (lenQOf hugeDaysParams) := by
    refine ⟨?_, ?_, ?_⟩ <;> norm_num [lenQOf, hugeDaysParams, M32]
  have hnd : numDaysOf hugeDaysParams.days = 4400000000 := by
    have h : hugeDaysParams.days = ((4400000000 : ℕ) : ℚ) := by
      norm_num [hugeDaysParams]
    unfold numDaysOf
    rw [h, Int.ceil_natCast]
    rfl
  have hpush : ¬ pushesOK (simRun wExp hugeDaysParams) := by
    intro hp
    have h1 := hp.1
    rw [simRun_logs_length, hnd] at h1
    norm_num [U32MAX] at h1
  unfold simulate
  rw [if_pos hlen, if_neg hpush]

theorem simulate_deterministic_witness :
    okParams = okParams
    ∧ (simulate wExp okParams = simulate wExp okParams
       ∧ ∀ r1 r2, simulate wExp okParams = .ok r1 →
           simulate wExp okParams = .ok r2 →
           r1.queueSizes = r2.queueSizes ∧ r1.waits = r2.waits
           ∧ r1.metrics = r2.metrics) :=
  ⟨rfl, simulate_deterministic wExp okParams okParams rfl⟩

theorem simulate_conservation_witness :
    simulate wExp okParams = .ok (mkResult (simRun wExp okParams))
    ∧ 0 < (mkResult (simRun wExp okParams)).queueSizes.length
    ∧ (((mkResult (simRun wExp okParams)).queueSizes.getD 0 0 : ℤ)
        = (if (0 : Nat) = 0 then 0
           else ((mkResult (simRun wExp okParams)).queueSizes.getD (0 - 1) 0 : ℤ))
          + ((dayAt wExp okParams 0).arrivals : ℤ)
          - (servedOf (dayAt wExp okParams 0) : ℤ))
    ∧ servedOf (dayAt wExp okParams 0)
        ≤ min (capOf okParams.capacityPerDay)
            ((if (0 : Nat) = 0 then 0
              else (mkResult (simRun wExp okParams)).queueSizes.getD (0 - 1) 0)
              + (dayAt wExp okParams 0).arrivals)
    ∧ (0 < lenNatOf okParams →
        (dayAt wExp okParams 0).arrivals
          = (dayAt wExp okParams 0).pois + (dayAt wExp okParams 0).futHere) := by
  have hr : simulate wExp okParams = .ok (mkResult (simRun wExp okParams)) :=
    simulate_eq_ok wExp okParams okParams_len okParams_pushes
  have hd : 0 < (mkResult (simRun wExp okParams)).queueSizes.length := by
    have h1 : (mkResult (simRun wExp okParams)).queueSizes.length
        = numDaysOf okParams.days := simRun_qs_length wExp okParams
    rw [h1, okParams_numDays]
    norm_num
  obtain ⟨h1, h2, h3⟩ :=
    simulate_conservation wExp okParams (mkResult (simRun wExp okParams)) hr 0 hd
  exact ⟨hr, hd, h1, h2, h3⟩

theorem simulate_utilisation_bounds_witness :
    (0 : ℚ) ≤ okParams.capacityPerDay ∧ (0 : ℚ) ≤ okParams.arrivalRate
    ∧ simulate wExp okParams = .ok (mkResult (simRun wExp okParams))
    ∧ ((mkResult (simRun wExp okParams)).metrics.utilisation
        = (if 0 < (simRun wExp okParams).totalSlots
           then ((simRun wExp okParams).core.usedSlots : ℚ)
                / ((simRun wExp okParams).totalSlots : ℚ)
           else 0)
       ∧ 0 ≤ (mkResult (simRun wExp okParams)).metrics.utilisation
       ∧ (mkResult (simRun wExp okParams)).metrics.utilisation ≤ 1) := by
  have hcap : (0 : ℚ) ≤ okParams.capacityPerDay := by norm_num [okParams]
  have harr : (0 : ℚ) ≤ okParams.arrivalRate := by norm_num [okParams]
  have hr : simulate wExp okParams = .ok (mkResult (simRun wExp okParams)) :=
    simulate_eq_ok wExp okParams okParams_len okParams_pushes
  exact ⟨hcap, harr, hr,
    simulate_utilisation_bounds wExp okParams (mkResult (simRun wExp okParams)) hcap harr hr⟩

theorem simulate_warmup_exclusion_witness :
    simulate wExp okParams = .ok (mkResult (simRun wExp okParams))
    ∧ ((∀ wv ∈ (mkResult (simRun wExp okParams)).waits,
          ∃ lg ∈ (simRun wExp okParams).logs, ∃ ev ∈ lg.events,
            ev.isDNA = false ∧ okParams.warmup ≤ (lg.day : ℚ)
            ∧ ev.enteredDay ≤ lg.day ∧ wv = lg.day - ev.enteredDay)
       ∧ (mkResult (simRun wExp okParams)).metrics.nSeen
          = (mkResult (simRun wExp okParams)).waits.length) := by
  have hr : simulate wExp okParams = .ok (mkResult (simRun wExp okParams)) :=
    simulate_eq_ok wExp okParams okParams_len okParams_pushes
  exact ⟨hr,
    simulate_warmup_exclusion wExp okParams (mkResult (simRun wExp okParams)) hr⟩

theorem simulate_quantile_spec_witness :
    simulate wExp okParams = .ok (mkResult (simRun wExp okParams))
    ∧ (List.Sorted (· ≤ ·) (mkResult (simRun wExp okParams)).waits
       ∧ ((mkResult (simRun wExp okParams)).waits = [] →
            (mkResult (simRun wExp okParams)).metrics.medianWait = none
            ∧ (mkResult (simRun wExp okParams)).metrics.p90Wait = none
            ∧ (mkResult (simRun wExp okParams)).metrics.meanWait = none
            ∧ (mkResult (simRun wExp okParams)).metrics.within14 = none
            ∧ (mkResult (simRun wExp okParams)).metrics.within28 = none
            ∧ (mkResult (simRun wExp okParams)).metrics.within42 = none
            ∧ ∀ q : ℚ, quantile (mkResult (simRun wExp okParams)).waits q = none)
       ∧ (∀ q : ℚ, 0 ≤ q → q ≤ 1 → (mkResult (simRun wExp okParams)).waits ≠ [] →
            quantile (mkResult (simRun wExp okParams)).waits q
              = (mkResult (simRun wExp okParams)).waits.get?
                  (⌊(((mkResult (simRun wExp okParams)).waits.length - 1 : Nat) : ℚ) * q⌋).toNat
            ∧ (quantile (mkResult (simRun wExp okParams)).waits q).isSome = true)
       ∧ (mkResult (simRun wExp okParams)).metrics.medianWait
          = quantile (mkResult (simRun wExp okParams)).waits (1 / 2)
       ∧ (mkResult (simRun wExp okParams)).metrics.p90Wait
          = quantile (mkResult (simRun wExp okParams)).waits (9 / 10)) := by
  have hr : simulate wExp okParams = .ok (mkResult (simRun wExp okParams)) :=
    simulate_eq_ok wExp okParams okParams_len okParams_pushes
  exact ⟨hr,
    simulate_quantile_spec wExp okParams (mkResult (simRun wExp okParams)) hr⟩

/-- A concrete zero-capacity parameter record with positive arrival rate. -/
def zcParams : Params :=
  { arrivalRate := 18, capacityPerDay := 0, dnaRate := 12, rebookRate := 70,
    rebookDelay := 7, days := 30, warmup := 14, seed := 42 }

theorem zcParams_len : arrayLenOK (lenQOf zcParams) := by
  refine ⟨?_, ?_, ?_⟩ <;> norm_num [lenQOf, zcParams, M32]

theorem zcParams_numDays : numDaysOf zcParams.days = 30 := by
  have h : zcParams.days = ((30 : ℕ) : ℚ) := by norm_num [zcParams]
  unfold numDaysOf
  rw [h, Int.ceil_natCast]
  rfl

theorem zcParams_pushes : pushesOK (simRun wExp zcParams) := by
  refine pushesOK_of_zeroRun wExp zcParams (fun a => wExp_poisson_fst_zero _ a) ?_
  rw [zcParams_numDays]
  norm_num [U32MAX]

theorem simulate_zero_capacity_witness :
    zcParams.capacityPerDay = 0 ∧ (0 : ℚ) < zcParams.arrivalRate
    ∧ simulate wExp zcParams = .ok (mkResult (simRun wExp zcParams))
    ∧ ((∀ i j, i ≤ j → j < (mkResult (simRun wExp zcParams)).queueSizes.length →
          (mkResult (simRun wExp zcParams)).queueSizes.getD i 0
            ≤ (mkResult (simRun wExp zcParams)).queueSizes.getD j 0)
       ∧ (mkResult (simRun wExp zcParams)).waits = []) := by
  have hcap : zcParams.capacityPerDay = 0 := by norm_num [zcParams]
  have harr : (0 : ℚ) < zcParams.arrivalRate := by norm_num [zcParams]
  have hr : simulate wExp zcParams = .ok (mkResult (simRun wExp zcParams)) :=
    simulate_eq_ok wExp zcParams zcParams_len zcParams_pushes
  exact ⟨hcap, harr, hr,
    simulate_zero_capacity wExp zcParams (mkResult (simRun wExp zcParams)) hcap harr hr⟩

theorem simulate_no_dropped_rebooks_witness :
    okParams.rebookDelay = ((7 : ℕ) : ℚ) ∧ okParams.days = ((30 : ℕ) : ℚ)
    ∧ 1 ≤ 30
    ∧ ∀ lg ∈ (simRun wExp okParams).logs, ∀ ev ∈ lg.events,
        ev.willRebook = true →
        ev.returnDay = lg.day + 7 ∧ ev.returnDay < lenNatOf okParams
        ∧ ev.dropped = false := by
  have h1 : okParams.rebookDelay = ((7 : ℕ) : ℚ) := by norm_num [okParams]
  have h2 : okParams.days = ((30 : ℕ) : ℚ) := by norm_num [okParams]
  exact ⟨h1, h2, by norm_num,
    simulate_no_dropped_rebooks wExp okParams 7 30 h1 h2 (by norm_num)⟩

/-- A fixed positive stand-in for `Math.exp` used in the Poisson witnesses. -/
def pExp : ℚ → ℚ := fun _ => 1 / 2

theorem poisson_spec_witness :
    (((-1 : ℚ) ≤ 0) ∧ poisson pExp (-1) 5 = (0, 5))
    ∧ ((0 : ℚ) < 1 ∧ (0 : ℚ) < pExp (-(1 : ℚ))
       ∧ (drawProd 5 ((poisson pExp 1 5).1 + 1) ≤ pExp (-(1 : ℚ))
          ∧ (∀ j, 1 ≤ j → j ≤ (poisson pExp 1 5).1 →
              pExp (-(1 : ℚ)) < drawProd 5 j)
          ∧ (poisson pExp 1 5).2
              = mulberry32Next^[(poisson pExp 1 5).1 + 1] 5)) :=
  ⟨⟨by norm_num, (poisson_spec pExp (-1) 5).1 (by norm_num)⟩,
   by norm_num [pExp], by norm_num [pExp],
   (poisson_spec pExp 1 5).2 (by norm_num) (by norm_num [pExp])⟩

/-- Fixed `Math.exp` stand-in for the quantile-monotonicity witness, chosen so
that the single Poisson call of the one-day run draws exactly twice. -/
def wExp9 : ℚ → ℚ := fun _ => 1 / 2

/-- One-day parameter record whose single arrival is served and recorded. -/
def p9 : Params :=
  { arrivalRate := 1, capacityPerDay := 1, dnaRate := 0, rebookRate := 0,
    rebookDelay := 0, days := 1, warmup := 0, seed := 42 }

theorem p9_len : arrayLenOK (lenQOf p9) := by
  refine ⟨?_, ?_, ?_⟩ <;> norm_num [lenQOf, p9, M32]

theorem poisson_eval (e : ℚ → ℚ) (lambda : ℚ) (a k : Nat)
    (h1 : 0 < lambda) (h2 : 0 < e (-lambda))
    (h3 : drawProd a (k + 1) ≤ e (-lambda))
    (h4 : ∀ m, m < k → ¬ drawProd a (m + 1) ≤ e (-lambda)) :
    poisson e lambda a = (k, mulberry32Next^[k + 1] a) := by
  unfold poisson
  rw [if_neg (not_le.mpr h1), dif_pos h2]
  have hfind : Nat.find (exists_drawProd_le a (e (-lambda)) h2) = k :=
    (Nat.find_eq_iff _).mpr ⟨h3, h4⟩
  rw [hfind]

theorem p9_pois : poisson wExp9 p9.arrivalRate 42 = (1, mulberry32Next^[2] 42) := by
  have harg : p9.arrivalRate = (1 : ℚ) := rfl
  rw [harg]
  have hd0 : draw 42 0 = (2581720956 : ℚ) / (4294967296 : ℚ) := by
    have h : draw 42 0
        = ((mulberry32Mix (mulberry32Next^[1] 42) : ℕ) : ℚ) / ((M32 : ℕ) : ℚ) := rfl
    rw [h, show mulberry32Mix (mulberry32Next^[1] 42) = 2581720956 from by decide]
    norm_num [M32]
  have hd1 : draw 42 1 = (1925393290 : ℚ) / (4294967296 : ℚ) := by
    have h : draw 42 1
        = ((mulberry32Mix (mulberry32Next^[2] 42) : ℕ) : ℚ) / ((M32 : ℕ) : ℚ) := rfl
    rw [h, show mulberry32Mix (mulberry32Next^[2] 42) = 1925393290 from by decide]
    norm_num [M32]
  have hp1 : drawProd 42 1 = draw 42 0 := by
    unfold drawProd
    rw [Finset.prod_range_one]
  have hp2 : drawProd 42 2 = draw 42 0 * draw 42 1 := by
    unfold drawProd
    rw [Finset.prod_range_succ, Finset.prod_range_one]
  apply poisson_eval
  · norm_num
  · norm_num [wExp9]
  · show drawProd 42 2 ≤ wExp9 (-(1 : ℚ))
    rw [hp2, hd0, hd1]
    norm_num [wExp9]
  · intro m hm
    have hm0 : m = 0 := by omega
    subst hm0
    show ¬ drawProd 42 1 ≤ wExp9 (-(1 : ℚ))
    rw [hp1, hd0]
    norm_num [wExp9]

theorem p9_init : initState p9 =
    { core := { a := 42, queue := [], futureAdds := [0, 0, 0], waits := [],
                usedSlots := 0 },
      totalSlots := 0, queueSizes := [], logs := [] } := by
  unfold initState
  have h42 : (p9.seed % (M32 : Int)).toNat = 42 := by
    have h : p9.seed % (M32 : Int) = 42 := by norm_num [p9, M32]
    rw [h]
    rfl
  have hlen : lenNatOf p9 = 3 := by
    have h1 : lenQOf p9 = 3 := by norm_num [lenQOf, p9]
    unfold lenNatOf
    rw [h1, show ((3 : ℚ)).num = 3 from by norm_num]
    rfl
  rw [h42, hlen]
  rfl

theorem p9_run : simRun wExp9 p9 =
    { core := { a := mulberry32Next (mulberry32Next (mulberry32Next 42)), queue := [],
                futureAdds := [0, 0, 0], waits := [0], usedSlots := 1 },
      totalSlots := 1, queueSizes := [0],
      logs := [⟨0, 1, 0, 1, [⟨0, false, false, 0, false⟩], 0⟩] } := by
  have h1 : simRun wExp9 p9 = dayStep wExp9 p9 0 (initState p9) := by
    unfold simRun
    have hnd : numDaysOf p9.days = 1 := by
      unfold numDaysOf
      rw [show p9.days = (1 : ℚ) from rfl, Int.ceil_one]
      rfl
    rw [hnd]
    rfl
  have hw : decide (p9.warmup ≤ ((0 : ℕ) : ℚ)) = true := by
    rw [show p9.warmup = (0 : ℚ) from rfl]
    norm_num
  have hcap1 : capOf p9.capacityPerDay = 1 := by
    unfold capOf
    rw [show p9.capacityPerDay = (1 : ℚ) from rfl, Int.floor_one]
    rfl
  have hdna : ¬ (rval (mulberry32Next (mulberry32Next (mulberry32Next 42)))
      < p9.dnaRate / 100) := by
    rw [show p9.dnaRate = (0 : ℚ) from rfl, zero_div]
    exact not_lt.mpr (rval_nonneg _)
  have hserve : serveLoop p9.dnaRate p9.rebookRate (rebookOffOf p9.rebookDelay) true 0 1
      { a := mulberry32Next (mulberry32Next 42), queue := [0], futureAdds := [0, 0, 0],
        waits := [], usedSlots := 0 }
      = ⟨{ a := mulberry32Next (mulberry32Next (mulberry32Next 42)), queue := [],
           futureAdds := [0, 0, 0], waits := [0], usedSlots := 1 },
         [⟨0, false, false, 0, false⟩]⟩ := by
    rw [show (1 : ℕ) = 0 + 1 from rfl]
    simp only [serveLoop]
    rw [if_neg hdna]
    simp [serveLoop]
  rw [h1, p9_init]
  simp only [dayStep]
  rw [p9_pois, hw, hcap1]
  norm_num
  rw [hserve]
  exact ⟨rfl, rfl, rfl, rfl⟩

theorem p9_core_waits : (simRun wExp9 p9).core.waits = [0] := by
  rw [p9_run]

theorem p9_pushes : pushesOK (simRun wExp9 p9) := by
  rw [p9_run]
  decide

theorem p9_waits : (mkResult (simRun wExp9 p9)).waits = [0] := by
  show List.insertionSort (· ≤ ·) (simRun wExp9 p9).core.waits = [0]
  rw [p9_core_waits]
  rfl

theorem simulate_quantile_monotone_witness :
    simulate wExp9 p9 = .ok (mkResult (simRun wExp9 p9))
    ∧ (mkResult (simRun wExp9 p9)).waits ≠ []
    ∧ ∃ m5 m9, (mkResult (simRun wExp9 p9)).metrics.medianWait = some m5
        ∧ (mkResult (simRun wExp9 p9)).metrics.p90Wait = some m9 ∧ m5 ≤ m9 := by
  have hr : simulate wExp9 p9 = .ok (mkResult (simRun wExp9 p9)) :=
    simulate_eq_ok wExp9 p9 p9_len p9_pushes
  have hne : (mkResult (simRun wExp9 p9)).waits ≠ [] := by
    rw [p9_waits]
    simp
  exact ⟨hr, hne,
    simulate_quantile_monotone wExp9 p9 (mkResult (simRun wExp9 p9)) hr hne⟩

end Waitlist
